import Mathlib

/-!
Verification of the coin_maximiser repository (src/main.cpp).

The program is a recursive "bounded knapsack" search: given a weight budget
and a catalog of coins (integer value, integer weight), it searches for a
maximum-value multiset of coins whose total weight fits in the budget.

The embedding below translates the C++ source shallowly:
  - `Coin`, `Coins` mirror the `Coin` class and `typedef std::vector<Coin> Coins`;
    C++ `int` fields become unbounded `Int` (the program's arithmetic never
    approaches the 32-bit range for the inputs it handles, and no claim turns
    on wraparound).
  - `find_best_combination` mirrors the recursive function of the same name.
    The C++ recursion has no structural bound, so the model takes an explicit
    fuel parameter; `SRes.fuelOut` marks fuel exhaustion (a model artifact,
    not a program behaviour), `SRes.oob` marks the `std::out_of_range`
    exception escaping from `hash` (`value_to_prime.at`), and `SRes.found r`
    is a normal return of the `std::optional<Coins>` value `r`.
  - the static `std::map` cache is threaded as an explicit association list;
    the C++ function contains no insertion into the cache, and accordingly
    the model returns its cache argument unchanged.
  - the cache key `hash(coin) + std::pow(remaining_weight, 23)` is computed
    in C++ through `double` arithmetic.  `fl53` models rounding of a
    nonnegative integer to the nearest IEEE-754 double (53-bit significand,
    ties to even); the model keeps the exact rounded double as the key.
    (The further conversion of that double to `unsigned long` is undefined
    behaviour once the value exceeds the `unsigned long` range; it can only
    merge keys further, so equalities of modelled keys are faithful.)
  - `best_value` mirrors the comparator function of the same name.  Its
    `std::sort` call uses the non-strict comparator `value1 >= value2`;
    `sortDescCpp` models it as the guarded insertion sort that libstdc++
    performs on the short candidate vectors arising here (at most one
    candidate per catalog coin), under which an element is moved in front
    of every element it compares `>=` against — so equal keys end up in
    reverse encounter order.
-/

/-- Mirrors `class Coin { int value; int weight; }`. -/
structure Coin where
  value : Int
  weight : Int
deriving DecidableEq, Repr

/-- Mirrors `typedef std::vector<Coin> Coins`. -/
abbrev Coins := List Coin

/-- Total value of a combination: the sum the program computes by looping
`total_value += coin.value` (also the sum inside `best_value`). -/
def total_value (coins : Coins) : Int :=
  (coins.map Coin.value).sum

/-- Total weight of a combination: the sum the program computes by looping
`total_weight += coin.weight`. -/
def total_weight (coins : Coins) : Int :=
  (coins.map Coin.weight).sum

/-- Mirrors `Coins copy_combination(Coins&)`: element-wise reconstruction
`copy.push_back(Coin(coin.value, coin.weight))`. -/
def copy_combination (coins : Coins) : Coins :=
  coins.map (fun coin => Coin.mk coin.value coin.weight)

/-- One step of the insertion sort modelling the `std::sort` call in
`best_value`: the new element is moved in front of every element `y` with
`y.1 ≤ x.1` (the code's comparator `value1 >= value2` answering true). -/
def insertGE (x : Int × Coins) : List (Int × Coins) → List (Int × Coins)
  | [] => [x]
  | y :: l => if y.1 ≤ x.1 then x :: y :: l else y :: insertGE x l

/-- Models the `std::sort(total_value_and_combination, comparator)` call of
`best_value` (descending by total value; equal keys in reverse encounter
order, as the guarded insertion sort of libstdc++ produces for this
non-strict comparator on the short vectors arising here). -/
def sortDescCpp (l : List (Int × Coins)) : List (Int × Coins) :=
  l.foldl (fun acc x => insertGE x acc) []

/-- Mirrors `Coins best_value(std::vector<Coins> const&)`: pair each combination
with its total value, sort descending by value, return a copy of the front
combination.  `front()` of an empty vector is undefined behaviour in C++;
the model returns `[]` there (the program only ever calls `best_value` on
non-empty candidate lists). -/
def best_value (combinations : List Coins) : Coins :=
  let total_value_and_combination := combinations.map (fun comb => (total_value comb, comb))
  match sortDescCpp total_value_and_combination with
  | [] => []
  | p :: _ => copy_combination p.2

/-- Mirrors the `value_to_prime` table inside `unsigned long hash(Coin const&)`. -/
def value_to_prime : List (Int × Nat) :=
  [(0, 0), (1, 2), (2, 3), (5, 5), (10, 7), (20, 11), (50, 13), (100, 17), (200, 19)]

/-- Mirrors `unsigned long hash(Coin const& coin)`: `value_to_prime.at(coin.value)`.
`std::map::at` throws `std::out_of_range` when the key is absent; the model
returns `none` there. -/
def hashCoin (coin : Coin) : Option Nat :=
  value_to_prime.lookup coin.value

/-- The coin values for which `hashCoin` is defined (the keys of
`value_to_prime`): the hard-coded Australian denominations plus the sentinel 0. -/
def denomVals : List Int :=
  [0, 1, 2, 5, 10, 20, 50, 100, 200]

/-- Rounding of a nonnegative integer to the nearest IEEE-754 double
(53-bit significand, ties to even).  Models the value of a C++ `double`
holding that integer.  Faithful for `n < 2 ^ 253` (far beyond every value
arising here). -/
def fl53 (n : Nat) : Nat :=
  if n < 2 ^ 53 then n
  else
    let s := ((List.range 200).find? (fun s => n / 2 ^ s < 2 ^ 53)).getD 0
    let q := n / 2 ^ s
    let r := n % 2 ^ s
    let half := 2 ^ (s - 1)
    if half < r ∨ (r = half ∧ q % 2 = 1) then (q + 1) * 2 ^ s else q * 2 ^ s

/-- The cache fingerprint `unsigned long h = hash(coin) + std::pow(remaining_weight, 23)`
of `find_best_combination`: `std::pow` works in `double` (modelled for the
nonnegative remaining weights the program produces), and the addition is
performed in `double` as well, so each step rounds through `fl53`.
`none` models the `std::out_of_range` exception escaping from `hash`. -/
def fingerprint (coin : Coin) (remaining_weight : Int) : Option Nat :=
  match hashCoin coin with
  | none => none
  | some p => some (fl53 (p + fl53 (remaining_weight.toNat ^ 23)))

/-- The memoization cache: `static std::map<unsigned long, std::optional<Coins>>`,
modelled as an association list from fingerprints to stored results. -/
abbrev Cache := List (Nat × Option Coins)

/-- Result of one `find_best_combination` call in the model. -/
inductive SRes where
  /-- Model artifact: the fuel bound was hit (the C++ recursion is unbounded). -/
  | fuelOut : SRes
  /-- The `std::out_of_range` exception from `hash` escaped the call. -/
  | oob : SRes
  /-- The call returned this `std::optional<Coins>` value. -/
  | found : Option Coins → SRes
deriving DecidableEq, Repr

/-- Outcome of the candidate-collection loop of `find_best_combination`. -/
inductive CollectOut where
  /-- A recursive call ran out of fuel (model artifact). -/
  | errFuel : CollectOut
  /-- A recursive call threw `std::out_of_range`, aborting the loop. -/
  | errOob : CollectOut
  /-- The loop finished; these are the collected candidate combinations. -/
  | ok : List Coins → CollectOut
deriving DecidableEq, Repr

/-- The `for (Coin const& next_coin : options)` loop of
`find_best_combination`: call `g` on each option in order; skip results
without a value (`continue`), push a `copy_combination` of results with a
value, and abort with the exception of the first recursive call that throws. -/
def collect (g : Coin → SRes) : Coins → CollectOut
  | [] => CollectOut.ok []
  | c :: rest =>
    match g c with
    | SRes.fuelOut => CollectOut.errFuel
    | SRes.oob => CollectOut.errOob
    | SRes.found none => collect g rest
    | SRes.found (some comb) =>
      match collect g rest with
      | CollectOut.ok l => CollectOut.ok (copy_combination comb :: l)
      | e => e

/-- Mirrors `std::optional<Coins> find_best_combination(Coin const&, int, Coins const&)`
with the static cache made explicit and a fuel bound added for the
unbounded C++ recursion.  Following the source: compute the fingerprint
(`hash` may throw), look it up in the cache and return a hit directly;
otherwise base case 1 (`coin.weight > remaining_weight` → no value),
base case 2 (perfect fit → `{coin}`), and the inductive case, which
collects recursive results over all options, returns `{coin}` when no
candidate was found, and otherwise appends `coin` to the `best_value`
candidate.  The source stores nothing into the cache, so the cache
component of the result is the argument cache unchanged. -/
def find_best_combination : Nat → Coin → Int → Coins → Cache → SRes × Cache
  | 0, _, _, _, cache => (SRes.fuelOut, cache)
  | fuel + 1, coin, remaining_weight, options, cache =>
    match fingerprint coin remaining_weight with
    | none => (SRes.oob, cache)
    | some h =>
      match cache.lookup h with
      | some r => (SRes.found r, cache)
      | none =>
        if coin.weight > remaining_weight then (SRes.found none, cache)
        else if coin.weight = remaining_weight then (SRes.found (some [coin]), cache)
        else
          match collect (fun next_coin =>
              (find_best_combination fuel next_coin (remaining_weight - coin.weight) options cache).1)
              options with
          | CollectOut.errFuel => (SRes.fuelOut, cache)
          | CollectOut.errOob => (SRes.oob, cache)
          | CollectOut.ok [] => (SRes.found (some [coin]), cache)
          | CollectOut.ok (c :: cs) =>
            (SRes.found (some (best_value (c :: cs) ++ [coin])), cache)

/-- The catalog hard-coded in `main` (before the density sort): the eight
Australian coins. -/
def coin_options : Coins :=
  [⟨1, 26⟩, ⟨2, 52⟩, ⟨5, 28⟩, ⟨10, 56⟩, ⟨20, 113⟩, ⟨50, 155⟩, ⟨100, 90⟩, ⟨200, 66⟩]

/-- The candidate-collection loop of the spec-side `search` (no cache, no
hash): `none` propagates fuel exhaustion, a valueless recursive result is
skipped, a result with a value is collected. -/
def collectSpec (g : Coin → Option (Option Coins)) : Coins → Option (List Coins)
  | [] => some []
  | c :: rest =>
    match g c with
    | none => none
    | some none => collectSpec g rest
    | some (some comb) => (collectSpec g rest).map (fun l => comb :: l)

/-- The spec's three-case contract for `search(coin, remainingWeight, catalog)`
(the refinement target for claim C1), stated from the spec's words with the
same fuel artifact as the code model (`none` = out of fuel):
1. `coin.weight > remainingWeight`: no combination;
2. perfect fit: the single-element combination `[coin]`;
3. otherwise recurse on every catalog coin with `remainingWeight - coin.weight`;
   if no recursive call returns a combination, return `[coin]` alone, else
   append `coin` to the maximum-total-value sub-combination chosen by the
   Combination Comparator `best_value`. -/
def searchSpec : Nat → Coin → Int → Coins → Option (Option Coins)
  | 0, _, _, _ => none
  | fuel + 1, coin, remainingWeight, catalog =>
    if coin.weight > remainingWeight then some none
    else if coin.weight = remainingWeight then some (some [coin])
    else
      match collectSpec (fun c => searchSpec fuel c (remainingWeight - coin.weight) catalog)
          catalog with
      | none => none
      | some [] => some (some [coin])
      | some (c :: cs) => some (some (best_value (c :: cs) ++ [coin]))

/-- Embeds a spec-side result into the model's result type (`none` = out of
fuel, which the code model reports as `SRes.fuelOut`). -/
def sresOfSpec : Option (Option Coins) → SRes
  | none => SRes.fuelOut
  | some r => SRes.found r

/-- `find_best_combination` with the Result Cache removed, i.e. with every
cache lookup missing (claim C4's comparison point).  The fingerprint is
still computed — `hash` can still throw — and everything else is as in
`find_best_combination`. -/
def find_best_combination_nocache : Nat → Coin → Int → Coins → SRes
  | 0, _, _, _ => SRes.fuelOut
  | fuel + 1, coin, remaining_weight, options =>
    match fingerprint coin remaining_weight with
    | none => SRes.oob
    | some _ =>
      if coin.weight > remaining_weight then SRes.found none
      else if coin.weight = remaining_weight then SRes.found (some [coin])
      else
        match collect (fun next_coin =>
            find_best_combination_nocache fuel next_coin (remaining_weight - coin.weight) options)
            options with
        | CollectOut.errFuel => SRes.fuelOut
        | CollectOut.errOob => SRes.oob
        | CollectOut.ok [] => SRes.found (some [coin])
        | CollectOut.ok (c :: cs) => SRes.found (some (best_value (c :: cs) ++ [coin]))

/-- The total-value view of a search outcome: `some (r.map total_value)` for
a normal return `r`, `none` for an exception or fuel exhaustion. -/
def viewVal : SRes → Option (Option Int)
  | SRes.found r => some (r.map total_value)
  | _ => none

/-- The subproblems `(coin, remainingWeight)` on which `find_best_combination`
is invoked during a run that starts at `(root, budget)` over catalog `cat`:
the root call itself, and, whenever `(c, rw)` is reached with `c.weight < rw`
(the inductive case), every catalog coin `d` at `rw - c.weight`.  (In the
reference run no call throws and the cache never hits, so every such
subproblem really is invoked.) -/
inductive Reaches (cat : Coins) (root : Coin) (budget : Int) : Coin → Int → Prop
  | root : Reaches cat root budget root budget
  | step {c : Coin} {rw : Int} {d : Coin} :
      Reaches cat root budget c rw → c.weight < rw → d ∈ cat →
      Reaches cat root budget d (rw - c.weight)

/-! ## Basic lemmas -/

@[simp]
theorem copy_combination_eq (coins : Coins) : copy_combination coins = coins := by
  induction coins with
  | nil => rfl
  | cons c cs ih => simp [copy_combination] at ih ⊢

@[simp]
theorem total_value_append (l l' : Coins) :
    total_value (l ++ l') = total_value l + total_value l' := by
  simp [total_value]

@[simp]
theorem total_weight_append (l l' : Coins) :
    total_weight (l ++ l') = total_weight l + total_weight l' := by
  simp [total_weight]

theorem total_value_cons (c : Coin) (l : Coins) :
    total_value (c :: l) = c.value + total_value l := by
  simp [total_value]

theorem total_weight_cons (c : Coin) (l : Coins) :
    total_weight (c :: l) = c.weight + total_weight l := by
  simp [total_weight]

/-! ## The `best_value` selection as a left fold

`best_value l` pairs each combination with its value, insertion-sorts the
pairs descending (equal keys reversed) and takes the front.  The front of
that sort is exactly a left fold that keeps the latest element whose value
is at least the current best.  All claims about `best_value` go through
this fold form. -/

/-- The element `best_value (c :: cs)` returns: fold over `cs` keeping the
newest combination whose total value is at least the best so far. -/
def bvFold (c : Coins) (cs : List Coins) : Coins :=
  cs.foldl (fun b x => if total_value b ≤ total_value x then x else b) c

theorem insertGE_head {acc : List (Int × Coins)} {b : Int × Coins}
    (h : acc.head? = some b) (x : Int × Coins) :
    (insertGE x acc).head? = some (if b.1 ≤ x.1 then x else b) := by
  cases acc with
  | nil => simp at h
  | cons y t =>
    simp at h
    subst h
    by_cases hc : y.1 ≤ x.1 <;> simp [insertGE, hc]

theorem foldl_insertGE_head (ps : List (Int × Coins)) :
    ∀ (acc : List (Int × Coins)) (b : Int × Coins), acc.head? = some b →
    (ps.foldl (fun acc x => insertGE x acc) acc).head?
      = some (ps.foldl (fun b x => if b.1 ≤ x.1 then x else b) b) := by
  induction ps with
  | nil => intro acc b h; simpa using h
  | cons x rest ih =>
    intro acc b h
    simpa using ih (insertGE x acc) (if b.1 ≤ x.1 then x else b) (insertGE_head h x)

theorem pairFold_eq_bvFold (cs : List Coins) :
    ∀ c : Coins,
    (cs.map (fun comb => (total_value comb, comb))).foldl
        (fun b x => if b.1 ≤ x.1 then x else b) (total_value c, c)
      = (total_value (bvFold c cs), bvFold c cs) := by
  induction cs with
  | nil => intro c; simp [bvFold]
  | cons x rest ih =>
    intro c
    by_cases hc : total_value c ≤ total_value x
    · simpa [bvFold, hc] using ih x
    · simpa [bvFold, hc] using ih c

theorem best_value_eq_bvFold (c : Coins) (cs : List Coins) :
    best_value (c :: cs) = bvFold c cs := by
  have hhead :
      (sortDescCpp ((total_value c, c) :: cs.map (fun comb => (total_value comb, comb)))).head?
        = some (total_value (bvFold c cs), bvFold c cs) := by
    have h0 : ([(total_value c, c)] : List (Int × Coins)).head? = some (total_value c, c) := rfl
    have h1 := foldl_insertGE_head (cs.map (fun comb => (total_value comb, comb)))
      [(total_value c, c)] (total_value c, c) h0
    rw [pairFold_eq_bvFold] at h1
    simpa [sortDescCpp, insertGE] using h1
  unfold best_value
  simp only [List.map_cons]
  cases hs : sortDescCpp ((total_value c, c) :: cs.map (fun comb => (total_value comb, comb))) with
  | nil => rw [hs] at hhead; simp at hhead
  | cons p t =>
    rw [hs] at hhead
    simp at hhead
    simp [hhead]

theorem bvFold_mem (cs : List Coins) : ∀ c : Coins, bvFold c cs ∈ c :: cs := by
  induction cs with
  | nil => intro c; simp [bvFold]
  | cons x rest ih =>
    intro c
    by_cases hc : total_value c ≤ total_value x
    · have := ih x
      simp [bvFold, hc] at this ⊢
      rcases this with h | h
      · right; left; exact h
      · right; right; exact h
    · have := ih c
      simp [bvFold, hc] at this ⊢
      rcases this with h | h
      · left; exact h
      · right; right; exact h

theorem bvFold_base_le (cs : List Coins) :
    ∀ c : Coins, total_value c ≤ total_value (bvFold c cs) := by
  induction cs with
  | nil => intro c; simp [bvFold]
  | cons x rest ih =>
    intro c
    by_cases hc : total_value c ≤ total_value x
    · calc total_value c ≤ total_value x := hc
        _ ≤ total_value (bvFold x rest) := ih x
        _ = total_value (bvFold c (x :: rest)) := by simp [bvFold, hc]
    · calc total_value c ≤ total_value (bvFold c rest) := ih c
        _ = total_value (bvFold c (x :: rest)) := by simp [bvFold, hc]

theorem bvFold_le (cs : List Coins) :
    ∀ c : Coins, ∀ m ∈ c :: cs, total_value m ≤ total_value (bvFold c cs) := by
  induction cs with
  | nil => intro c m hm; simp at hm; subst hm; simp [bvFold]
  | cons x rest ih =>
    intro c m hm
    simp at hm
    by_cases hc : total_value c ≤ total_value x
    · have hb : total_value (bvFold c (x :: rest)) = total_value (bvFold x rest) := by
        simp [bvFold, hc]
      rw [hb]
      rcases hm with h | h | h
      · rw [h]; exact le_trans hc (bvFold_base_le rest x)
      · rw [h]; exact bvFold_base_le rest x
      · exact ih x m (by simp [h])
    · have hb : total_value (bvFold c (x :: rest)) = total_value (bvFold c rest) := by
        simp [bvFold, hc]
      rw [hb]
      rcases hm with h | h | h
      · rw [h]; exact bvFold_base_le rest c
      · rw [h]
        exact le_trans (le_of_lt (lt_of_not_le hc)) (bvFold_base_le rest c)
      · exact ih c m (by simp [h])

/-! ## Lemmas about the candidate-collection loop -/

theorem collect_congr {g g' : Coin → SRes} :
    ∀ {l : Coins}, (∀ c ∈ l, g c = g' c) → collect g l = collect g' l := by
  intro l
  induction l with
  | nil => intro _; rfl
  | cons c rest ih =>
    intro h
    have hc : g c = g' c := h c (by simp)
    have hrest : collect g rest = collect g' rest := ih (fun d hd => h d (by simp [hd]))
    simp [collect, hc, hrest]

theorem collect_ok_forall {g : Coin → SRes} :
    ∀ {l : Coins} {cands : List Coins}, collect g l = CollectOut.ok cands →
    ∀ c ∈ l, ∃ r, g c = SRes.found r := by
  intro l
  induction l with
  | nil => intro cands _ c hc; simp at hc
  | cons c rest ih =>
    intro cands h d hd
    rcases List.mem_cons.mp hd with hd | hd
    · cases hg : g c with
      | fuelOut => simp [collect, hg] at h
      | oob => simp [collect, hg] at h
      | found r => exact ⟨r, by rw [hd]; exact hg⟩
    · cases hg : g c with
      | fuelOut => simp [collect, hg] at h
      | oob => simp [collect, hg] at h
      | found r =>
        cases r with
        | none =>
          simp only [collect, hg] at h
          exact ih h d hd
        | some comb =>
          simp only [collect, hg] at h
          cases hrest : collect g rest with
          | ok l => exact ih hrest d hd
          | errFuel => rw [hrest] at h; simp at h
          | errOob => rw [hrest] at h; simp at h

theorem collect_ok_mem {g : Coin → SRes} :
    ∀ {l : Coins} {cands : List Coins}, collect g l = CollectOut.ok cands →
    ∀ x ∈ cands, ∃ c ∈ l, g c = SRes.found (some x) := by
  intro l
  induction l with
  | nil =>
    intro cands h x hx
    simp only [collect] at h
    injection h with h2
    rw [← h2] at hx
    simp at hx
  | cons c rest ih =>
    intro cands h x hx
    cases hg : g c with
    | fuelOut => simp [collect, hg] at h
    | oob => simp [collect, hg] at h
    | found r =>
      cases r with
      | none =>
        simp only [collect, hg] at h
        obtain ⟨d, hd, hgd⟩ := ih h x hx
        exact ⟨d, List.mem_cons_of_mem c hd, hgd⟩
      | some comb =>
        simp only [collect, hg] at h
        cases hrest : collect g rest with
        | errFuel => rw [hrest] at h; simp at h
        | errOob => rw [hrest] at h; simp at h
        | ok l =>
          rw [hrest] at h
          simp only [copy_combination_eq] at h
          injection h with h2
          rw [← h2] at hx
          rcases List.mem_cons.mp hx with hx | hx
          · exact ⟨c, List.mem_cons_self c rest, by rw [← hx] at hg; exact hg⟩
          · obtain ⟨d, hd, hgd⟩ := ih hrest x hx
            exact ⟨d, List.mem_cons_of_mem c hd, hgd⟩

theorem collect_eq_ok {g : Coin → SRes} :
    ∀ {l : Coins}, (∀ c ∈ l, ∃ r, g c = SRes.found r) →
    collect g l = CollectOut.ok (l.filterMap (fun c =>
      match g c with | SRes.found (some comb) => some comb | _ => none)) := by
  intro l
  induction l with
  | nil => intro _; rfl
  | cons c rest ih =>
    intro h
    obtain ⟨r, hr⟩ := h c (List.mem_cons_self c rest)
    have hrest := ih (fun d hd => h d (List.mem_cons_of_mem c hd))
    cases r with
    | none => simp [collect, hr, List.filterMap_cons, hrest]
    | some comb => simp [collect, hr, List.filterMap_cons, hrest]

theorem collect_errFuel_exists {g : Coin → SRes} :
    ∀ {l : Coins}, collect g l = CollectOut.errFuel → ∃ c ∈ l, g c = SRes.fuelOut := by
  intro l
  induction l with
  | nil => intro h; simp [collect] at h
  | cons c rest ih =>
    intro h
    cases hg : g c with
    | fuelOut => exact ⟨c, List.mem_cons_self c rest, hg⟩
    | oob => simp [collect, hg] at h
    | found r =>
      cases r with
      | none =>
        simp only [collect, hg] at h
        obtain ⟨d, hd, hgd⟩ := ih h
        exact ⟨d, List.mem_cons_of_mem c hd, hgd⟩
      | some comb =>
        simp only [collect, hg] at h
        cases hrest : collect g rest with
        | errFuel =>
          obtain ⟨d, hd, hgd⟩ := ih hrest
          exact ⟨d, List.mem_cons_of_mem c hd, hgd⟩
        | errOob => rw [hrest] at h; simp at h
        | ok l => rw [hrest] at h; simp at h

theorem collect_errOob_exists {g : Coin → SRes} :
    ∀ {l : Coins}, collect g l = CollectOut.errOob → ∃ c ∈ l, g c = SRes.oob := by
  intro l
  induction l with
  | nil => intro h; simp [collect] at h
  | cons c rest ih =>
    intro h
    cases hg : g c with
    | oob => exact ⟨c, List.mem_cons_self c rest, hg⟩
    | fuelOut => simp [collect, hg] at h
    | found r =>
      cases r with
      | none =>
        simp only [collect, hg] at h
        obtain ⟨d, hd, hgd⟩ := ih h
        exact ⟨d, List.mem_cons_of_mem c hd, hgd⟩
      | some comb =>
        simp only [collect, hg] at h
        cases hrest : collect g rest with
        | errOob =>
          obtain ⟨d, hd, hgd⟩ := ih hrest
          exact ⟨d, List.mem_cons_of_mem c hd, hgd⟩
        | errFuel => rw [hrest] at h; simp at h
        | ok l => rw [hrest] at h; simp at h

theorem collect_err_of_exists {g : Coin → SRes} :
    ∀ {l : Coins}, (∃ c ∈ l, g c = SRes.fuelOut ∨ g c = SRes.oob) →
    collect g l = CollectOut.errFuel ∨ collect g l = CollectOut.errOob := by
  intro l
  induction l with
  | nil => intro h; simp at h
  | cons c rest ih =>
    intro h
    obtain ⟨d, hd, hgd⟩ := h
    rcases List.mem_cons.mp hd with hd | hd
    · rw [hd] at hgd
      rcases hgd with hgd | hgd
      · left; simp [collect, hgd]
      · right; simp [collect, hgd]
    · have hrest := ih ⟨d, hd, hgd⟩
      cases hg : g c with
      | fuelOut => left; simp [collect, hg]
      | oob => right; simp [collect, hg]
      | found r =>
        cases r with
        | none => simpa [collect, hg] using hrest
        | some comb =>
          rcases hrest with hrest | hrest
          · left; simp [collect, hg, hrest]
          · right; simp [collect, hg, hrest]

/-! ## The cache is never written -/

/-- The source contains no insertion into the static cache, so every call
returns the cache exactly as it found it. -/
theorem find_best_combination_cache_eq (fuel : Nat) (coin : Coin) (remaining_weight : Int)
    (options : Coins) (cache : Cache) :
    (find_best_combination fuel coin remaining_weight options cache).2 = cache := by
  cases fuel with
  | zero => rfl
  | succ fuel =>
    simp only [find_best_combination]
    cases fingerprint coin remaining_weight with
    | none => rfl
    | some h =>
      simp only
      cases cache.lookup h with
      | some r => rfl
      | none =>
        simp only
        split
        · rfl
        · split
          · rfl
          · split <;> rfl

/-! ## Domain of the hash function -/

theorem lookup_isSome_iff (t : List (Int × Nat)) (a : Int) :
    (t.lookup a).isSome ↔ a ∈ t.map Prod.fst := by
  induction t with
  | nil => simp [List.lookup]
  | cons p rest ih =>
    cases p with
    | mk k v =>
      by_cases h : a = k
      · simp [List.lookup, h]
      · have hbeq : (a == k) = false := by simp [h]
        simp [List.lookup, hbeq, h, ih]

theorem hashCoin_isSome_iff (coin : Coin) :
    (hashCoin coin).isSome ↔ coin.value ∈ denomVals := by
  have h := lookup_isSome_iff value_to_prime coin.value
  have he : value_to_prime.map Prod.fst = denomVals := by rfl
  rw [he] at h
  exact h

theorem fingerprint_isSome_iff (coin : Coin) (remaining_weight : Int) :
    (fingerprint coin remaining_weight).isSome ↔ coin.value ∈ denomVals := by
  rw [← hashCoin_isSome_iff]
  unfold fingerprint
  cases h : hashCoin coin <;> simp [h]

/-! ## Weight bound: every returned combination fits the remaining weight -/

theorem find_best_combination_weight_le :
    ∀ (fuel : Nat) (coin : Coin) (remaining_weight : Int) (options : Coins) (comb : Coins),
    (find_best_combination fuel coin remaining_weight options []).1 = SRes.found (some comb) →
    total_weight comb ≤ remaining_weight := by
  intro fuel
  induction fuel with
  | zero =>
    intro coin rw0 options comb h
    simp [find_best_combination] at h
  | succ fuel ih =>
    intro coin rw0 options comb h
    simp only [find_best_combination] at h
    cases hfp : fingerprint coin rw0 with
    | none => rw [hfp] at h; simp at h
    | some key =>
      rw [hfp] at h
      simp only [List.lookup] at h
      by_cases h1 : coin.weight > rw0
      · simp [h1] at h
      · rw [if_neg h1] at h
        by_cases h2 : coin.weight = rw0
        · rw [if_pos h2] at h
          simp at h
          rw [← h]
          simp [total_weight, h2]
        · rw [if_neg h2] at h
          cases hcol : collect (fun next_coin =>
              (find_best_combination fuel next_coin (rw0 - coin.weight) options []).1)
              options with
          | errFuel => rw [hcol] at h; simp at h
          | errOob => rw [hcol] at h; simp at h
          | ok cands =>
            rw [hcol] at h
            cases cands with
            | nil =>
              simp at h
              rw [← h]
              simp only [total_weight, List.map, List.sum_cons, List.sum_nil]
              omega
            | cons c cs =>
              simp at h
              rw [← h]
              have hmem : bvFold c cs ∈ c :: cs := bvFold_mem cs c
              obtain ⟨d, hd, hgd⟩ := collect_ok_mem hcol (bvFold c cs) hmem
              have hsub : total_weight (bvFold c cs) ≤ rw0 - coin.weight := ih d _ options _ hgd
              rw [best_value_eq_bvFold]
              have : total_weight (bvFold c cs ++ [coin])
                  = total_weight (bvFold c cs) + coin.weight := by
                simp [total_weight]
              rw [this]
              omega

/-! ## Totality on denominated catalogs with positive weights -/

theorem find_best_combination_ne_oob :
    ∀ (fuel : Nat) (coin : Coin) (remaining_weight : Int) (options : Coins) (cache : Cache),
    coin.value ∈ denomVals → (∀ c ∈ options, c.value ∈ denomVals) →
    (find_best_combination fuel coin remaining_weight options cache).1 ≠ SRes.oob := by
  intro fuel
  induction fuel with
  | zero =>
    intro coin rw0 options cache hv hopts
    simp [find_best_combination]
  | succ fuel ih =>
    intro coin rw0 options cache hv hopts
    have hfp : (fingerprint coin rw0).isSome := (fingerprint_isSome_iff coin rw0).mpr hv
    simp only [find_best_combination]
    cases hf : fingerprint coin rw0 with
    | none => rw [hf] at hfp; simp at hfp
    | some key =>
      dsimp only
      cases hl : cache.lookup key with
      | some r => simp
      | none =>
        dsimp only
        split
        · simp
        · split
          · simp
          · cases hcol : collect (fun next_coin =>
                (find_best_combination fuel next_coin (rw0 - coin.weight) options cache).1)
                options with
            | errFuel => simp
            | errOob =>
              obtain ⟨d, hd, hgd⟩ := collect_errOob_exists hcol
              exact absurd hgd (ih d _ options cache (hopts d hd) hopts)
            | ok cands => cases cands <;> simp

theorem find_best_combination_ne_fuelOut :
    ∀ (fuel : Nat) (coin : Coin) (remaining_weight : Int) (options : Coins) (cache : Cache),
    (∀ c ∈ options, 1 ≤ c.weight) → (remaining_weight - coin.weight).toNat < fuel →
    (find_best_combination fuel coin remaining_weight options cache).1 ≠ SRes.fuelOut := by
  intro fuel
  induction fuel with
  | zero =>
    intro coin rw0 options cache hw hfuel
    omega
  | succ fuel ih =>
    intro coin rw0 options cache hw hfuel
    simp only [find_best_combination]
    cases hf : fingerprint coin rw0 with
    | none => simp
    | some key =>
      dsimp only
      cases hl : cache.lookup key with
      | some r => simp
      | none =>
        dsimp only
        split
        · simp
        · split
          · simp
          · rename_i h1 h2
            cases hcol : collect (fun next_coin =>
                (find_best_combination fuel next_coin (rw0 - coin.weight) options cache).1)
                options with
            | errFuel =>
              obtain ⟨d, hd, hgd⟩ := collect_errFuel_exists hcol
              have hdw : 1 ≤ d.weight := hw d hd
              have hlt : coin.weight < rw0 := by
                rcases lt_or_ge coin.weight rw0 with h | h
                · exact h
                · exact absurd (le_antisymm (not_lt.mp h1) h) h2
              have hbound : (rw0 - coin.weight - d.weight).toNat < fuel := by omega
              exact absurd hgd (ih d _ options cache hw hbound)
            | errOob => simp
            | ok cands => cases cands <;> simp

theorem find_best_combination_found (fuel : Nat) (coin : Coin) (remaining_weight : Int)
    (options : Coins) (cache : Cache)
    (hv : coin.value ∈ denomVals) (hopts : ∀ c ∈ options, c.value ∈ denomVals)
    (hw : ∀ c ∈ options, 1 ≤ c.weight)
    (hfuel : (remaining_weight - coin.weight).toNat < fuel) :
    ∃ r, (find_best_combination fuel coin remaining_weight options cache).1 = SRes.found r := by
  cases hres : (find_best_combination fuel coin remaining_weight options cache).1 with
  | fuelOut =>
    exact absurd hres (find_best_combination_ne_fuelOut fuel coin remaining_weight options cache
      hw hfuel)
  | oob =>
    exact absurd hres (find_best_combination_ne_oob fuel coin remaining_weight options cache
      hv hopts)
  | found r => exact ⟨r, rfl⟩

/-- A returned "no combination" forces the overweight condition (this
direction holds with no hypotheses: every other branch of the function
returns a different constructor or a `some`). -/
theorem find_best_combination_none_imp (fuel : Nat) (coin : Coin) (remaining_weight : Int)
    (options : Coins) (cache : Cache)
    (h : (find_best_combination fuel coin remaining_weight options cache).1 = SRes.found none) :
    coin.weight > remaining_weight ∨
      ∃ r, cache.lookup ((fingerprint coin remaining_weight).getD 0) = some r := by
  cases fuel with
  | zero => simp [find_best_combination] at h
  | succ fuel =>
    simp only [find_best_combination] at h
    cases hf : fingerprint coin remaining_weight with
    | none => rw [hf] at h; simp at h
    | some key =>
      rw [hf] at h
      dsimp only at h
      cases hl : cache.lookup key with
      | some r => right; exact ⟨r, by simpa [hf] using hl⟩
      | none =>
        rw [hl] at h
        dsimp only at h
        by_cases h1 : coin.weight > remaining_weight
        · left; exact h1
        · exfalso
          rw [if_neg h1] at h
          by_cases h2 : coin.weight = remaining_weight
          · rw [if_pos h2] at h; simp at h
          · rw [if_neg h2] at h
            cases hcol : collect (fun next_coin =>
                (find_best_combination fuel next_coin (remaining_weight - coin.weight)
                  options cache).1) options with
            | errFuel => rw [hcol] at h; simp at h
            | errOob => rw [hcol] at h; simp at h
            | ok cands => rw [hcol] at h; cases cands <;> simp at h

/-! ## Refinement: the code equals the spec's three-case contract on
denominated inputs -/

theorem collect_spec_rel {g : Coin → SRes} {gs : Coin → Option (Option Coins)} :
    ∀ {l : Coins}, (∀ c ∈ l, g c = sresOfSpec (gs c)) →
    collect g l = (match collectSpec gs l with
      | none => CollectOut.errFuel
      | some cands => CollectOut.ok cands) := by
  intro l
  induction l with
  | nil => intro _; rfl
  | cons c rest ih =>
    intro h
    have hc := h c (List.mem_cons_self c rest)
    have hrest := ih (fun d hd => h d (List.mem_cons_of_mem c hd))
    cases hgs : gs c with
    | none =>
      rw [hgs] at hc
      simp [collect, collectSpec, hc, hgs, sresOfSpec]
    | some r =>
      rw [hgs] at hc
      cases r with
      | none => simp [collect, collectSpec, hc, hgs, sresOfSpec, hrest]
      | some comb =>
        cases hcs : collectSpec gs rest with
        | none =>
          rw [hcs] at hrest
          simp [collect, collectSpec, hc, hgs, sresOfSpec, hrest, hcs]
        | some cands =>
          rw [hcs] at hrest
          simp [collect, collectSpec, hc, hgs, sresOfSpec, hrest, hcs]

theorem find_best_combination_eq_searchSpec :
    ∀ (fuel : Nat) (coin : Coin) (remaining_weight : Int) (catalog : Coins),
    coin.value ∈ denomVals → (∀ c ∈ catalog, c.value ∈ denomVals) →
    (find_best_combination fuel coin remaining_weight catalog []).1
      = sresOfSpec (searchSpec fuel coin remaining_weight catalog) := by
  intro fuel
  induction fuel with
  | zero => intro coin rw0 cat hv hopts; rfl
  | succ fuel ih =>
    intro coin rw0 cat hv hopts
    have hfp : (fingerprint coin rw0).isSome := (fingerprint_isSome_iff coin rw0).mpr hv
    simp only [find_best_combination, searchSpec]
    cases hf : fingerprint coin rw0 with
    | none => rw [hf] at hfp; simp at hfp
    | some key =>
      dsimp only [List.lookup]
      have hrel : collect
            (fun next_coin => (find_best_combination fuel next_coin (rw0 - coin.weight) cat []).1)
            cat
          = (match collectSpec
                (fun next_coin => searchSpec fuel next_coin (rw0 - coin.weight) cat) cat with
            | none => CollectOut.errFuel
            | some cands => CollectOut.ok cands) :=
        collect_spec_rel (fun d hd => ih d (rw0 - coin.weight) cat (hopts d hd) hopts)
      by_cases h1 : coin.weight > rw0
      · simp [h1, sresOfSpec]
      · rw [if_neg h1, if_neg h1]
        by_cases h2 : coin.weight = rw0
        · simp [h2, sresOfSpec]
        · rw [if_neg h2, if_neg h2]
          cases hcs : collectSpec
              (fun next_coin => searchSpec fuel next_coin (rw0 - coin.weight) cat) cat with
          | none =>
            rw [hcs] at hrel
            simp only at hrel
            rw [hrel]
            rfl
          | some cands =>
            rw [hcs] at hrel
            simp only at hrel
            rw [hrel]
            cases cands with
            | nil => rfl
            | cons c cs => rfl

/-! ## Removing the cache changes nothing -/

theorem find_best_combination_eq_nocache :
    ∀ (fuel : Nat) (coin : Coin) (remaining_weight : Int) (options : Coins),
    (find_best_combination fuel coin remaining_weight options []).1
      = find_best_combination_nocache fuel coin remaining_weight options := by
  intro fuel
  induction fuel with
  | zero => intro _ _ _; rfl
  | succ fuel ih =>
    intro coin rw0 options
    simp only [find_best_combination, find_best_combination_nocache]
    cases hf : fingerprint coin rw0 with
    | none => rfl
    | some key =>
      dsimp only [List.lookup]
      have hcg : collect
            (fun next_coin => (find_best_combination fuel next_coin (rw0 - coin.weight) options []).1)
            options
          = collect
            (fun next_coin => find_best_combination_nocache fuel next_coin (rw0 - coin.weight) options)
            options :=
        collect_congr (fun d _ => ih d (rw0 - coin.weight) options)
      rw [hcg]
      by_cases h1 : coin.weight > rw0
      · simp [h1]
      · rw [if_neg h1, if_neg h1]
        by_cases h2 : coin.weight = rw0
        · simp [h2]
        · rw [if_neg h2, if_neg h2]
          cases hcol : collect
              (fun next_coin => find_best_combination_nocache fuel next_coin (rw0 - coin.weight) options)
              options with
          | errFuel => rfl
          | errOob => rfl
          | ok cands => cases cands <;> rfl

/-! ## Permutation invariance of the achieved total value -/

theorem best_value_mem (c : Coins) (cs : List Coins) : best_value (c :: cs) ∈ c :: cs := by
  rw [best_value_eq_bvFold]
  exact bvFold_mem cs c

theorem best_value_dom (c : Coins) (cs : List Coins) :
    ∀ m ∈ c :: cs, total_value m ≤ total_value (best_value (c :: cs)) := by
  rw [best_value_eq_bvFold]
  exact bvFold_le cs c

theorem filterMap_congr_on {α β : Type} {f f' : α → Option β} :
    ∀ {l : List α}, (∀ c ∈ l, f c = f' c) → l.filterMap f = l.filterMap f' := by
  intro l
  induction l with
  | nil => intro _; rfl
  | cons c rest ih =>
    intro h
    have h1 := h c (List.mem_cons_self c rest)
    have h2 := ih (fun d hd => h d (List.mem_cons_of_mem c hd))
    simp [List.filterMap_cons, h1, h2]

theorem map_tv_filterMap {g : Coin → SRes} :
    ∀ (l : Coins),
    (l.filterMap (fun c => match g c with
        | SRes.found (some comb) => some comb | _ => none)).map total_value
      = l.filterMap (fun c => match viewVal (g c) with
        | some (some v) => some v | _ => none) := by
  intro l
  induction l with
  | nil => rfl
  | cons c rest ih =>
    cases hg : g c with
    | fuelOut => simp [List.filterMap_cons, hg, viewVal, ih]
    | oob => simp [List.filterMap_cons, hg, viewVal, ih]
    | found r =>
      cases r with
      | none => simp [List.filterMap_cons, hg, viewVal, ih]
      | some comb => simp [List.filterMap_cons, hg, viewVal, ih]

theorem max_eq_of_perm_dom {v v' : Int} {L L' : List Int}
    (hperm : L.Perm L') (hmem : v ∈ L) (hdom : ∀ x ∈ L, x ≤ v)
    (hmem' : v' ∈ L') (hdom' : ∀ x ∈ L', x ≤ v') : v = v' :=
  le_antisymm (hdom' v (hperm.mem_iff.mp hmem)) (hdom v' (hperm.mem_iff.mpr hmem'))

theorem find_best_combination_perm_viewVal {cat cat' : Coins} (hp : cat.Perm cat') :
    ∀ (fuel : Nat) (coin : Coin) (remaining_weight : Int),
    viewVal (find_best_combination fuel coin remaining_weight cat []).1
      = viewVal (find_best_combination fuel coin remaining_weight cat' []).1 := by
  intro fuel
  induction fuel with
  | zero => intro _ _; rfl
  | succ fuel ih =>
    intro coin rw0
    have hIH : ∀ d : Coin,
        viewVal (find_best_combination fuel d (rw0 - coin.weight) cat []).1
          = viewVal (find_best_combination fuel d (rw0 - coin.weight) cat' []).1 :=
      fun d => ih d (rw0 - coin.weight)
    simp only [find_best_combination]
    cases hf : fingerprint coin rw0 with
    | none => rfl
    | some key =>
      dsimp only [List.lookup]
      by_cases h1 : coin.weight > rw0
      · rw [if_pos h1, if_pos h1]
      · rw [if_neg h1, if_neg h1]
        by_cases h2 : coin.weight = rw0
        · rw [if_pos h2, if_pos h2]
        · rw [if_neg h2, if_neg h2]
          cases hcol : collect
              (fun next_coin => (find_best_combination fuel next_coin (rw0 - coin.weight) cat []).1)
              cat with
          | errFuel =>
            obtain ⟨d, hd, hgd⟩ := collect_errFuel_exists hcol
            have hvd : viewVal (find_best_combination fuel d (rw0 - coin.weight) cat' []).1
                = none := by rw [← hIH d, hgd]; rfl
            have herr' : (find_best_combination fuel d (rw0 - coin.weight) cat' []).1 = SRes.fuelOut
                ∨ (find_best_combination fuel d (rw0 - coin.weight) cat' []).1 = SRes.oob := by
              cases hg' : (find_best_combination fuel d (rw0 - coin.weight) cat' []).1 with
              | fuelOut => left; rfl
              | oob => right; rfl
              | found r => rw [hg'] at hvd; simp [viewVal] at hvd
            have := collect_err_of_exists
              (g := fun next_coin =>
                (find_best_combination fuel next_coin (rw0 - coin.weight) cat' []).1)
              (l := cat') ⟨d, hp.mem_iff.mp hd, herr'⟩
            rcases this with hcol' | hcol' <;> (rw [hcol']; try rfl)
          | errOob =>
            obtain ⟨d, hd, hgd⟩ := collect_errOob_exists hcol
            have hvd : viewVal (find_best_combination fuel d (rw0 - coin.weight) cat' []).1
                = none := by rw [← hIH d, hgd]; rfl
            have herr' : (find_best_combination fuel d (rw0 - coin.weight) cat' []).1 = SRes.fuelOut
                ∨ (find_best_combination fuel d (rw0 - coin.weight) cat' []).1 = SRes.oob := by
              cases hg' : (find_best_combination fuel d (rw0 - coin.weight) cat' []).1 with
              | fuelOut => left; rfl
              | oob => right; rfl
              | found r => rw [hg'] at hvd; simp [viewVal] at hvd
            have := collect_err_of_exists
              (g := fun next_coin =>
                (find_best_combination fuel next_coin (rw0 - coin.weight) cat' []).1)
              (l := cat') ⟨d, hp.mem_iff.mp hd, herr'⟩
            rcases this with hcol' | hcol' <;> (rw [hcol']; try rfl)
          | ok cands =>
            have hforall := collect_ok_forall hcol
            have hforall' : ∀ c ∈ cat',
                ∃ r, (find_best_combination fuel c (rw0 - coin.weight) cat' []).1
                  = SRes.found r := by
              intro d hd
              obtain ⟨r, hr⟩ := hforall d (hp.mem_iff.mpr hd)
              have hvd := hIH d
              rw [hr] at hvd
              cases hg' : (find_best_combination fuel d (rw0 - coin.weight) cat' []).1 with
              | fuelOut => rw [hg'] at hvd; simp [viewVal] at hvd
              | oob => rw [hg'] at hvd; simp [viewVal] at hvd
              | found r' => exact ⟨r', rfl⟩
            have hok := collect_eq_ok hforall
            obtain ⟨cands', hok', hcands'⟩ :
                ∃ cands',
                  collect (fun c =>
                      (find_best_combination fuel c (rw0 - coin.weight) cat' []).1) cat'
                    = CollectOut.ok cands' ∧
                  cands' = cat'.filterMap (fun c =>
                    match (find_best_combination fuel c (rw0 - coin.weight) cat' []).1 with
                    | SRes.found (some comb) => some comb | _ => none) :=
              ⟨_, collect_eq_ok hforall', rfl⟩
            have hcands : cands = cat.filterMap (fun c =>
                match (find_best_combination fuel c (rw0 - coin.weight) cat []).1 with
                | SRes.found (some comb) => some comb | _ => none) := by
              rw [hcol] at hok
              injection hok
            have hvperm : (cands.map total_value).Perm (cands'.map total_value) := by
              rw [hcands, hcands',
                map_tv_filterMap (g := fun c =>
                  (find_best_combination fuel c (rw0 - coin.weight) cat []).1) cat,
                map_tv_filterMap (g := fun c =>
                  (find_best_combination fuel c (rw0 - coin.weight) cat' []).1) cat']
              have hcongr : cat.filterMap (fun c =>
                    match viewVal (find_best_combination fuel c (rw0 - coin.weight) cat []).1 with
                    | some (some v) => some v | _ => none)
                  = cat.filterMap (fun c =>
                    match viewVal (find_best_combination fuel c (rw0 - coin.weight) cat' []).1 with
                    | some (some v) => some v | _ => none) :=
                filterMap_congr_on (fun d _ => by
                  show (match viewVal
                        (find_best_combination fuel d (rw0 - coin.weight) cat []).1 with
                      | some (some v) => some v | _ => none)
                    = (match viewVal
                        (find_best_combination fuel d (rw0 - coin.weight) cat' []).1 with
                      | some (some v) => some v | _ => none)
                  rw [hIH d])
              rw [hcongr]
              exact hp.filterMap _
            rw [hok']
            cases hcands0 : cands with
            | nil =>
              have hmape : cands'.map total_value = [] := by
                rw [hcands0] at hvperm
                exact List.perm_nil.mp hvperm.symm
              have hnil' : cands' = [] := List.map_eq_nil_iff.mp hmape
              rw [hnil']
            | cons c0 cs0 =>
              cases hcands0' : cands' with
              | nil =>
                exfalso
                rw [hcands0, hcands0'] at hvperm
                simp at hvperm
              | cons c0' cs0' =>
                rw [hcands0, hcands0'] at hvperm
                have hbv : total_value (best_value (c0 :: cs0))
                    = total_value (best_value (c0' :: cs0')) := by
                  apply max_eq_of_perm_dom hvperm
                  · exact List.mem_map_of_mem total_value (best_value_mem c0 cs0)
                  · intro x hx
                    obtain ⟨m, hm, hxm⟩ := List.mem_map.mp hx
                    rw [← hxm]
                    exact best_value_dom c0 cs0 m hm
                  · exact List.mem_map_of_mem total_value (best_value_mem c0' cs0')
                  · intro x hx
                    obtain ⟨m, hm, hxm⟩ := List.mem_map.mp hx
                    rw [← hxm]
                    exact best_value_dom c0' cs0' m hm
                simp [viewVal, hbv]

/-! ## Tie-breaking of `best_value`: the LAST maximal candidate wins -/

theorem bvFold_decomp :
    ∀ (cs : List Coins) (c : Coins), ∃ pre post,
      c :: cs = pre ++ bvFold c cs :: post ∧
      (∀ x ∈ post, total_value x < total_value (bvFold c cs)) ∧
      (∀ x ∈ pre, total_value x ≤ total_value (bvFold c cs)) := by
  intro cs
  induction cs with
  | nil =>
    intro c
    exact ⟨[], [], by simp [bvFold], by simp, by simp⟩
  | cons x rest ih =>
    intro c
    by_cases hc : total_value c ≤ total_value x
    · have hb : bvFold c (x :: rest) = bvFold x rest := by simp [bvFold, hc]
      obtain ⟨pre, post, heq, hpost, hpre⟩ := ih x
      refine ⟨c :: pre, post, ?_, ?_, ?_⟩
      · rw [hb, List.cons_append, ← heq]
      · rw [hb]; exact hpost
      · rw [hb]
        intro y hy
        rcases List.mem_cons.mp hy with hy | hy
        · rw [hy]; exact le_trans hc (bvFold_base_le rest x)
        · exact hpre y hy
    · have hb : bvFold c (x :: rest) = bvFold c rest := by simp [bvFold, hc]
      obtain ⟨pre, post, heq, hpost, hpre⟩ := ih c
      cases pre with
      | nil =>
        simp only [List.nil_append] at heq
        injection heq with h1 h2
        refine ⟨[], x :: rest, ?_, ?_, ?_⟩
        · rw [hb, ← h1]; simp
        · rw [hb]
          intro y hy
          rcases List.mem_cons.mp hy with hy | hy
          · rw [hy, ← h1]
            exact lt_of_not_le hc
          · rw [h2] at hy
            exact hpost y hy
        · simp
      | cons p pre' =>
        simp only [List.cons_append] at heq
        injection heq with h1 h2
        have hcB : total_value c ≤ total_value (bvFold c rest) := by
          have hp2 := hpre p (List.mem_cons_self p pre')
          rw [← h1] at hp2
          exact hp2
        refine ⟨c :: x :: pre', post, ?_, ?_, ?_⟩
        · rw [hb, List.cons_append, List.cons_append, ← h2]
        · rw [hb]; exact hpost
        · rw [hb]
          intro y hy
          rcases List.mem_cons.mp hy with hy | hy
          · rw [hy]
            exact hcB
          · rcases List.mem_cons.mp hy with hy | hy
            · rw [hy]
              exact le_trans (le_of_lt (lt_of_not_le hc)) hcB
            · exact hpre y (List.mem_cons_of_mem p hy)

/-! ## Claim theorems -/

/-- C1 counterexample: the claim's case 1 ("if `coin.weight > remainingWeight`
the call returns None") fails as universally stated: for a coin whose value
is not a hard-coded denomination (here value 3), `hash` throws
`std::out_of_range` before the base case is reached, so the call raises an
exception instead of returning None. -/
theorem c1_counterexample :
    (Coin.mk 3 10).weight > (5 : Int) ∧
    (find_best_combination 1 ⟨3, 10⟩ 5 [] []).1 = SRes.oob ∧
    SRes.oob ≠ SRes.found none := by
  refine ⟨by decide, by decide, by decide⟩

/-- C1 (amended): for coins and catalogs drawn from the hard-coded
denominations (so that `hash` cannot throw), `search` follows exactly the
spec's three-case contract `searchSpec`: None when the coin is overweight,
`[coin]` on a perfect fit, and otherwise the recursive exploration of every
catalog coin, returning `[coin]` alone when no recursive call yields a
combination and the `best_value` candidate with `coin` appended otherwise. -/
theorem c1_contract_on_denominations (fuel : Nat) (coin : Coin) (remainingWeight : Int)
    (catalog : Coins) (hcoin : coin.value ∈ denomVals)
    (hcat : ∀ c ∈ catalog, c.value ∈ denomVals) :
    (find_best_combination fuel coin remainingWeight catalog []).1
      = sresOfSpec (searchSpec fuel coin remainingWeight catalog) :=
  find_best_combination_eq_searchSpec fuel coin remainingWeight catalog hcoin hcat

/-- Witness for C1 at a concrete input. -/
theorem c1_contract_on_denominations_witness :
    (find_best_combination 3 ⟨0, 0⟩ 2 [⟨1, 1⟩] []).1
      = sresOfSpec (searchSpec 3 ⟨0, 0⟩ 2 [⟨1, 1⟩]) :=
  c1_contract_on_denominations 3 ⟨0, 0⟩ 2 [⟨1, 1⟩] (by decide) (by decide)

/-- C2: for every feasible pair (`coin.weight ≤ remainingWeight`), whenever
`search` returns a combination, its total weight (including `coin` itself)
is at most `remainingWeight`. -/
theorem c2_weight_bound (fuel : Nat) (coin : Coin) (remainingWeight : Int) (catalog : Coins)
    (comb : Coins) (_hfeas : coin.weight ≤ remainingWeight)
    (hres : (find_best_combination fuel coin remainingWeight catalog []).1
      = SRes.found (some comb)) :
    total_weight comb ≤ remainingWeight :=
  find_best_combination_weight_le fuel coin remainingWeight catalog comb hres

/-- Witness for C2 at a concrete input: the perfect-fit coin (5, 10) in
budget 10. -/
theorem c2_weight_bound_witness : total_weight [Coin.mk 5 10] ≤ (10 : Int) :=
  c2_weight_bound 1 ⟨5, 10⟩ 10 [] [⟨5, 10⟩] (by decide) (by decide)

/-- C3 (code bug): `find_best_combination` never stores anything in the
Result Cache — the cache it returns is always its argument cache, so after
a call with a fingerprint not in the cache (here fingerprint 0 of the
sentinel at remaining weight 0, empty cache) the cache still does not
contain that fingerprint, contradicting the claim that the result is stored
under the fingerprint after a miss. -/
theorem c3_cache_never_populated :
    (∀ (fuel : Nat) (coin : Coin) (remainingWeight : Int) (options : Coins) (cache : Cache),
      (find_best_combination fuel coin remainingWeight options cache).2 = cache) ∧
    (find_best_combination 1 ⟨0, 0⟩ 0 [] []).1 = SRes.found (some [⟨0, 0⟩]) ∧
    (find_best_combination 1 ⟨0, 0⟩ 0 [] []).2 = ([] : Cache) ∧
    fingerprint ⟨0, 0⟩ 0 = some 0 ∧ (([] : Cache).lookup 0 = none) :=
  ⟨find_best_combination_cache_eq, by decide, by decide, by decide, by decide⟩

/-- C4: removing the Result Cache (making every lookup miss) changes
nothing: since the code never writes the cache, a run from the program's
(empty) cache equals the cache-free run, result for result — in particular
the final selected combination's total value is unchanged for every catalog
and budget. -/
theorem c4_cache_pure_memoization (fuel : Nat) (budget : Int) (catalog : Coins) :
    (find_best_combination fuel ⟨0, 0⟩ budget catalog []).1
      = find_best_combination_nocache fuel ⟨0, 0⟩ budget catalog ∧
    viewVal (find_best_combination fuel ⟨0, 0⟩ budget catalog []).1
      = viewVal (find_best_combination_nocache fuel ⟨0, 0⟩ budget catalog) := by
  have h := find_best_combination_eq_nocache fuel ⟨0, 0⟩ budget catalog
  exact ⟨h, by rw [h]⟩

/-- C5: on a non-empty candidate list, `best_value` returns one of the
candidates, and its total value dominates every candidate's total value. -/
theorem c5_best_value_maximal (candidates : List Coins) (hne : candidates ≠ []) :
    best_value candidates ∈ candidates ∧
    ∀ m ∈ candidates, total_value m ≤ total_value (best_value candidates) := by
  cases candidates with
  | nil => exact absurd rfl hne
  | cons c cs => exact ⟨best_value_mem c cs, best_value_dom c cs⟩

/-- Witness for C5 at a concrete input. -/
theorem c5_best_value_maximal_witness :
    best_value [[Coin.mk 1 1], [Coin.mk 2 1]] ∈ [[Coin.mk 1 1], [Coin.mk 2 1]] :=
  (c5_best_value_maximal [[⟨1, 1⟩], [⟨2, 1⟩]] (by decide)).1

/-- C6 counterexample: with two candidates tied at the maximum total value,
`best_value` does NOT return the first one in encounter order: for the
candidates `[[(1,1)], [(1,2)]]` (both of total value 1) it returns the
second, `[(1,2)]`.  (The code sorts with the non-strict comparator
`value1 >= value2`, under which the insertion sort performed at these sizes
moves a later equal-valued candidate in front of an earlier one.) -/
theorem c6_counterexample :
    total_value [Coin.mk 1 1] = total_value [Coin.mk 1 2] ∧
    best_value [[Coin.mk 1 1], [Coin.mk 1 2]] = [Coin.mk 1 2] ∧
    ([Coin.mk 1 2] : Coins) ≠ [Coin.mk 1 1] := by
  refine ⟨by decide, by decide, by decide⟩

/-- C6 (amended): on a non-empty candidate list, `best_value` returns the
LAST maximal candidate in encounter order: the input splits as
`pre ++ best_value l :: post` where everything after the returned candidate
has strictly smaller total value and everything before it has total value
at most the returned one. -/
theorem c6_last_maximal (l : List Coins) (hne : l ≠ []) :
    ∃ pre post,
      l = pre ++ best_value l :: post ∧
      (∀ x ∈ post, total_value x < total_value (best_value l)) ∧
      (∀ x ∈ pre, total_value x ≤ total_value (best_value l)) := by
  cases l with
  | nil => exact absurd rfl hne
  | cons c cs =>
    rw [best_value_eq_bvFold]
    exact bvFold_decomp cs c

/-- Witness for C6 at a concrete input. -/
theorem c6_last_maximal_witness :
    ∃ pre post,
      ([[Coin.mk 1 1], [Coin.mk 1 2]] : List Coins)
        = pre ++ best_value [[Coin.mk 1 1], [Coin.mk 1 2]] :: post ∧
      (∀ x ∈ post, total_value x
        < total_value (best_value [[Coin.mk 1 1], [Coin.mk 1 2]])) ∧
      (∀ x ∈ pre, total_value x
        ≤ total_value (best_value [[Coin.mk 1 1], [Coin.mk 1 2]])) :=
  c6_last_maximal [[⟨1, 1⟩], [⟨1, 2⟩]] (by decide)

/-- C7 (code bug): the fingerprint is NOT injective on the subproblems of
the reference run.  The subproblems `((100, 90), 300)` and `((200, 66), 300)`
are both reached directly from the top-level `((0, 0), 300)` call, the coins
are distinct, yet the computed fingerprints coincide: the cache key is
computed through `double` (`std::pow(300, 23) ≈ 2 ^ 189`), whose 53-bit
significand absorbs the per-coin primes 17 and 19 entirely. -/
theorem c7_fingerprint_collision :
    Reaches coin_options ⟨0, 0⟩ 300 ⟨100, 90⟩ 300 ∧
    Reaches coin_options ⟨0, 0⟩ 300 ⟨200, 66⟩ 300 ∧
    (Coin.mk 100 90 ≠ Coin.mk 200 66) ∧
    fingerprint ⟨100, 90⟩ 300 = fingerprint ⟨200, 66⟩ 300 := by
  refine ⟨?_, ?_, by decide, by decide⟩
  · have h : Reaches coin_options ⟨0, 0⟩ 300 ⟨100, 90⟩ (300 - (⟨0, 0⟩ : Coin).weight) :=
      Reaches.step Reaches.root (by decide) (by decide)
    simpa using h
  · have h : Reaches coin_options ⟨0, 0⟩ 300 ⟨200, 66⟩ (300 - (⟨0, 0⟩ : Coin).weight) :=
      Reaches.step Reaches.root (by decide) (by decide)
    simpa using h

/-- C8: the total value of the search result is invariant under permutation
of the catalog: for every two catalogs that are permutations of each other,
every budget and every fuel, the sentinel-rooted searches return results of
equal total value (the value view also identifies the exceptional outcomes,
which occur on one ordering exactly when they occur on the other). -/
theorem c8_value_perm_invariant (catalog catalog' : Coins) (hp : catalog.Perm catalog')
    (fuel : Nat) (budget : Int) :
    viewVal (find_best_combination fuel ⟨0, 0⟩ budget catalog []).1
      = viewVal (find_best_combination fuel ⟨0, 0⟩ budget catalog' []).1 :=
  find_best_combination_perm_viewVal hp fuel ⟨0, 0⟩ budget

/-- Witness for C8 at a concrete input: a two-coin catalog and its swap. -/
theorem c8_value_perm_invariant_witness :
    viewVal (find_best_combination 3 ⟨0, 0⟩ 2 [⟨1, 1⟩, ⟨2, 1⟩] []).1
      = viewVal (find_best_combination 3 ⟨0, 0⟩ 2 [⟨2, 1⟩, ⟨1, 1⟩] []).1 :=
  c8_value_perm_invariant [⟨1, 1⟩, ⟨2, 1⟩] [⟨2, 1⟩, ⟨1, 1⟩]
    (List.Perm.swap (⟨2, 1⟩ : Coin) (⟨1, 1⟩ : Coin) []) 3 2

/-- C9 counterexample: "returns None if and only if coin.weight >
remainingWeight" fails as universally stated: for a non-denominated coin
(value 7) with weight over the remaining weight the call raises
`std::out_of_range` from `hash` instead of returning None. -/
theorem c9_counterexample :
    (Coin.mk 7 4).weight > (3 : Int) ∧
    (find_best_combination 1 ⟨7, 4⟩ 3 [] []).1 = SRes.oob ∧
    SRes.oob ≠ SRes.found none := by
  refine ⟨by decide, by decide, by decide⟩

/-- C9 (amended): over denominated catalogs with positive weights (and
enough fuel for the model), the search returns None exactly when
`coin.weight > remainingWeight`; in particular the sentinel-rooted
top-level call returns a combination for every budget ≥ 0. -/
theorem c9_none_iff_overweight (fuel : Nat) (coin : Coin) (remainingWeight : Int)
    (catalog : Coins)
    (hcoin : coin.value ∈ denomVals) (hcat : ∀ c ∈ catalog, c.value ∈ denomVals)
    (hw : ∀ c ∈ catalog, 1 ≤ c.weight)
    (hfuel : (remainingWeight - coin.weight).toNat < fuel) :
    ((find_best_combination fuel coin remainingWeight catalog []).1 = SRes.found none
      ↔ coin.weight > remainingWeight) ∧
    (∀ (budget : Int) (f : Nat), 0 ≤ budget → budget.toNat < f →
      ∃ comb, (find_best_combination f ⟨0, 0⟩ budget catalog []).1
        = SRes.found (some comb)) := by
  constructor
  · constructor
    · intro h
      rcases find_best_combination_none_imp fuel coin remainingWeight catalog [] h with h1 | h1
      · exact h1
      · obtain ⟨r, hr⟩ := h1
        simp [List.lookup] at hr
    · intro hgt
      have hex : ∃ f2, fuel = f2 + 1 := ⟨fuel - 1, by omega⟩
      obtain ⟨f, rfl⟩ := hex
      have hfp : (fingerprint coin remainingWeight).isSome :=
        (fingerprint_isSome_iff coin remainingWeight).mpr hcoin
      simp only [find_best_combination]
      cases hf : fingerprint coin remainingWeight with
      | none => rw [hf] at hfp; simp at hfp
      | some key =>
        dsimp only [List.lookup]
        rw [if_pos hgt]
  · intro budget f hb hf
    have hv0 : (Coin.mk 0 0).value ∈ denomVals := by decide
    have hfuel0 : (budget - (Coin.mk 0 0).weight).toNat < f := by
      show (budget - 0).toNat < f
      omega
    obtain ⟨r, hr⟩ := find_best_combination_found f ⟨0, 0⟩ budget catalog [] hv0 hcat hw hfuel0
    cases r with
    | none =>
      exfalso
      rcases find_best_combination_none_imp f ⟨0, 0⟩ budget catalog [] hr with h1 | h1
      · have h2 : (0 : Int) > budget := h1
        omega
      · obtain ⟨r', hr'⟩ := h1
        simp [List.lookup] at hr'
    | some comb => exact ⟨comb, hr⟩

/-- Witness for C9 at a concrete input: the perfect-fit call is not None,
and indeed its coin is not overweight. -/
theorem c9_none_iff_overweight_witness :
    (find_best_combination 1 ⟨1, 1⟩ 1 [⟨1, 1⟩] []).1 = SRes.found none
      ↔ (Coin.mk 1 1).weight > (1 : Int) :=
  (c9_none_iff_overweight 1 ⟨1, 1⟩ 1 [⟨1, 1⟩] (by decide) (by decide) (by decide)
    (by decide)).1

/-- C10: the per-coin `hash` is partial — defined exactly for the coin
values 0, 1, 2, 5, 10, 20, 50, 100, 200 — and for a coin with any other
value `find_best_combination` raises the out-of-range error immediately
(regardless of the remaining weight, catalog or cache), so the search is
only well-defined over catalogs drawn from those denominations. -/
theorem c10_hash_domain (coin : Coin) :
    ((hashCoin coin).isSome ↔ coin.value ∈ denomVals) ∧
    (coin.value ∉ denomVals →
      ∀ (fuel : Nat) (remainingWeight : Int) (catalog : Coins) (cache : Cache), 0 < fuel →
        (find_best_combination fuel coin remainingWeight catalog cache).1 = SRes.oob) := by
  constructor
  · exact hashCoin_isSome_iff coin
  · intro hnot fuel rw0 catalog cache hfuel
    have hex : ∃ f2, fuel = f2 + 1 := ⟨fuel - 1, by omega⟩
    obtain ⟨f, rfl⟩ := hex
    have hfp : fingerprint coin rw0 = none := by
      cases hf : fingerprint coin rw0 with
      | none => rfl
      | some k =>
        exact absurd ((fingerprint_isSome_iff coin rw0).mp (by rw [hf]; rfl)) hnot
    simp only [find_best_combination]
    rw [hfp]

/-- Witness for C10 at a concrete input: a coin of value 3 throws. -/
theorem c10_hash_domain_witness :
    (find_best_combination 1 ⟨3, 1⟩ 5 [] []).1 = SRes.oob :=
  (c10_hash_domain ⟨3, 1⟩).2 (by decide) 1 5 [] [] (by decide)
